import Mathlib

/-!
Verification of the union-find engine of the python-disjointset repository.

The file embeds the three pure-Python union-find classes of
benchmark_strategies.py (UnionFindFull, UnionFindHalving, UnionFindSplitting)
as Lean functions over a state holding a parent list and a rank list, exactly
mirroring the Python control flow.  Python list reads `l[i]` on in-range
indices are embedded as `nth l i`; Python list writes `l[i] = v` as
`List.set l i v`.  The recursive and iterative find loops are embedded with an
explicit fuel argument; the fuel `p.length` is always sufficient on states
satisfying the union-by-rank invariant, which is proved below.

The static fixed-size form of the library itself lives in disjointset.c,
which is not among the available source files (only its tests and callers
are); the definitions in the StaticDisjointSet namespace are therefore
modelled from the specification text and carry doc comments saying so.
-/

/-- Read a list entry, mirroring the Python in-range read `l[i]`.  The default
value 0 is never reached by any in-range operation on a well-formed state. -/
def nth : List Nat → Nat → Nat
  | [], _ => 0
  | a :: _, 0 => a
  | _ :: l, k + 1 => nth l k

/-- State of one union-find instance: the `self.parent` and `self.rank`
lists shared by all three classes of benchmark_strategies.py. -/
structure UF where
  parent : List Nat
  rank : List Nat
deriving DecidableEq

/-- Constructor shared by the three classes:
`self.parent = list(range(n))`, `self.rank = [0] * n`. -/
def UF.mk0 (n : Nat) : UF :=
  ⟨List.range n, List.replicate n 0⟩

/-- Pure traversal of the parent chain: follow `parent` for at most `fuel`
steps, stopping at a fixpoint.  This is the uncompressed traversal that the
specification uses to describe the result of find. -/
def rootFuel : Nat → List Nat → Nat → Nat
  | 0, _, x => x
  | f + 1, p, x => if nth p x = x then x else rootFuel f p (nth p x)

/-- Root of `x` in parent list `p`: the uncompressed traversal with fuel
`p.length`, which is enough on every well-formed state. -/
def rootD (p : List Nat) (x : Nat) : Nat :=
  rootFuel p.length p x

/-- Iterate the parent map `k` times from `x`. -/
def pIter (p : List Nat) : Nat → Nat → Nat
  | 0, x => x
  | k + 1, x => pIter p k (nth p x)

/-- Embedding of UnionFindFull.find, lines 19 to 22:
`if self.parent[x] != x: self.parent[x] = self.find(self.parent[x]);
return self.parent[x]`.  The fuel bounds the recursion depth; with fuel at
least the chain length the embedding follows the Python code exactly. -/
def UnionFindFull.findAux : Nat → List Nat → Nat → List Nat × Nat
  | 0, p, x => (p, x)
  | f + 1, p, x =>
    if nth p x = x then (p, x)
    else
      let q := UnionFindFull.findAux f p (nth p x)
      (q.1.set x q.2, q.2)

/-- UnionFindFull.find on a full state: rank is untouched. -/
def UnionFindFull.find (s : UF) (x : Nat) : UF × Nat :=
  let q := UnionFindFull.findAux s.parent.length s.parent x
  (⟨q.1, s.rank⟩, q.2)

/-- Body of the union method, lines 24 to 35, identical in all three classes
of benchmark_strategies.py; only the find method it calls differs, so it is
factored over the find function.  It mirrors
`rootX = self.find(x); rootY = self.find(y); if rootX == rootY: return;
if self.rank[rootX] < self.rank[rootY]: self.parent[rootX] = rootY
elif self.rank[rootX] > self.rank[rootY]: self.parent[rootY] = rootX
else: self.parent[rootY] = rootX; self.rank[rootX] += 1`. -/
def mkUnion (find : UF → Nat → UF × Nat) (s : UF) (x y : Nat) : UF :=
  let a := find s x
  let b := find a.1 y
  if a.2 = b.2 then b.1
  else if nth b.1.rank a.2 < nth b.1.rank b.2 then
    ⟨b.1.parent.set a.2 b.2, b.1.rank⟩
  else if nth b.1.rank b.2 < nth b.1.rank a.2 then
    ⟨b.1.parent.set b.2 a.2, b.1.rank⟩
  else
    ⟨b.1.parent.set b.2 a.2, b.1.rank.set a.2 (nth b.1.rank a.2 + 1)⟩

/-- UnionFindFull.union, lines 24 to 35. -/
def UnionFindFull.union (s : UF) (x y : Nat) : UF :=
  mkUnion UnionFindFull.find s x y

/-- Embedding of UnionFindHalving.find, lines 45 to 50:
`while self.parent[x] != x: self.parent[x] = self.parent[self.parent[x]];
x = self.parent[x]; return x`.  After the assignment the new value of
`self.parent[x]` is the grandparent, so the loop continues there. -/
def UnionFindHalving.findAux : Nat → List Nat → Nat → List Nat × Nat
  | 0, p, x => (p, x)
  | f + 1, p, x =>
    if nth p x = x then (p, x)
    else
      let g := nth p (nth p x)
      UnionFindHalving.findAux f (p.set x g) g

/-- UnionFindHalving.find on a full state: rank is untouched. -/
def UnionFindHalving.find (s : UF) (x : Nat) : UF × Nat :=
  let q := UnionFindHalving.findAux s.parent.length s.parent x
  (⟨q.1, s.rank⟩, q.2)

/-- UnionFindHalving.union, lines 52 to 63 (same body as the other two). -/
def UnionFindHalving.union (s : UF) (x y : Nat) : UF :=
  mkUnion UnionFindHalving.find s x y

/-- Embedding of UnionFindSplitting.find, lines 73 to 78:
`while self.parent[x] != x: temp = x; x = self.parent[x];
self.parent[temp] = self.parent[x]; return x`.  The loop moves to the old
parent and repoints the visited node to its grandparent. -/
def UnionFindSplitting.findAux : Nat → List Nat → Nat → List Nat × Nat
  | 0, p, x => (p, x)
  | f + 1, p, x =>
    if nth p x = x then (p, x)
    else
      let y := nth p x
      UnionFindSplitting.findAux f (p.set x (nth p y)) y

/-- UnionFindSplitting.find on a full state: rank is untouched. -/
def UnionFindSplitting.find (s : UF) (x : Nat) : UF × Nat :=
  let q := UnionFindSplitting.findAux s.parent.length s.parent x
  (⟨q.1, s.rank⟩, q.2)

/-- UnionFindSplitting.union, lines 80 to 91 (same body as the other two). -/
def UnionFindSplitting.union (s : UF) (x y : Nat) : UF :=
  mkUnion UnionFindSplitting.find s x y

/-- One workload operation, as produced by generate_workload:
either a find on one index or a union of two indices. -/
inductive Op where
  | find : Nat → Op
  | union : Nat → Nat → Op
deriving DecidableEq

/-- Boolean in-range check for one operation against universe size `n`. -/
def Op.ok (n : Nat) : Op → Bool
  | Op.find x => decide (x < n)
  | Op.union x y => decide (x < n) && decide (y < n)

/-- Dispatch one operation, as run_workload does, using the find of one
strategy and the union built from it. -/
def applyOp (find : UF → Nat → UF × Nat) (s : UF) : Op → UF
  | Op.find x => (find s x).1
  | Op.union x y => mkUnion find s x y

/-- Run a whole operation list with one strategy, as run_workload does. -/
def runOps (find : UF → Nat → UF × Nat) (s : UF) (ops : List Op) : UF :=
  ops.foldl (applyOp find) s

/-- run_workload on a UnionFindFull instance. -/
def runFull (s : UF) (ops : List Op) : UF :=
  runOps UnionFindFull.find s ops

/-- run_workload on a UnionFindHalving instance. -/
def runHalving (s : UF) (ops : List Op) : UF :=
  runOps UnionFindHalving.find s ops

/-- run_workload on a UnionFindSplitting instance. -/
def runSplitting (s : UF) (ops : List Op) : UF :=
  runOps UnionFindSplitting.find s ops

/-- States reachable from a freshly constructed instance of size `n` by any
interleaving of in-range find and union calls of the three strategies. -/
inductive Reachable (n : Nat) : UF → Prop where
  | base : Reachable n (UF.mk0 n)
  | findFull {s x} : Reachable n s → x < n →
      Reachable n (UnionFindFull.find s x).1
  | findHalving {s x} : Reachable n s → x < n →
      Reachable n (UnionFindHalving.find s x).1
  | findSplitting {s x} : Reachable n s → x < n →
      Reachable n (UnionFindSplitting.find s x).1
  | unionFull {s x y} : Reachable n s → x < n → y < n →
      Reachable n (UnionFindFull.union s x y)
  | unionHalving {s x y} : Reachable n s → x < n → y < n →
      Reachable n (UnionFindHalving.union s x y)
  | unionSplitting {s x y} : Reachable n s → x < n → y < n →
      Reachable n (UnionFindSplitting.union s x y)

/-- Union-by-rank well-formedness invariant: both lists have length `n`, the
parent map is closed on the universe, and rank strictly increases along every
non-trivial parent edge.  The last field rules out every cycle other than the
self-loops of roots and bounds the chain lengths. -/
structure UFInv (n : Nat) (s : UF) : Prop where
  plen : s.parent.length = n
  rlen : s.rank.length = n
  closed : ∀ x, x < n → nth s.parent x < n
  rankUp : ∀ x, x < n → nth s.parent x ≠ x →
    nth s.rank x < nth s.rank (nth s.parent x)

/-- Specification of a find function: on well-formed states and in-range
arguments it returns the uncompressed root of the pre-call state, keeps the
state well formed, never touches rank, and keeps the root of every index. -/
def FindSpec (find : UF → Nat → UF × Nat) : Prop :=
  ∀ n s x, UFInv n s → x < n →
    (find s x).2 = rootD s.parent x ∧
    UFInv n (find s x).1 ∧
    (find s x).1.rank = s.rank ∧
    (∀ y, y < n → rootD (find s x).1.parent y = rootD s.parent y)

/-- Measure used for termination of chain traversals: the number of universe
indices whose rank is at least the rank of `x`.  Rank strictly increases along
parent edges, so the measure strictly decreases. -/
def meas (r : List Nat) (n x : Nat) : Nat :=
  ((Finset.range n).filter (fun y => nth r x ≤ nth r y)).card

/-- Error taxonomy of the library, from the specification. -/
inductive DSError where
  | outOfRange
  | invalidArgument
deriving DecidableEq

/-- Modelled from the spec: the constructor of the StaticDisjointSet form of
disjointset.c, which is not among the available source files.  Per the
specification it fails with an invalid-argument error when the size is
negative and otherwise allocates `parent[i] = i` and `rank[i] = 0` for every
index below `n`. -/
def StaticDisjointSet.init (n : Int) : Except DSError UF :=
  if n < 0 then Except.error DSError.invalidArgument
  else Except.ok (UF.mk0 n.toNat)

/-- Modelled from the spec: StaticDisjointSet.find of disjointset.c, which is
not among the available source files.  Per the specification it raises an
out-of-range error, leaving the state untouched, whenever the index is
outside the universe, and otherwise performs the core find with full path
compression.  The error case returns the state unchanged together with the
error. -/
def StaticDisjointSet.find (s : UF) (x : Int) : UF × Except DSError Nat :=
  if 0 ≤ x ∧ x < (s.parent.length : Int) then
    let q := UnionFindFull.find s x.toNat
    (q.1, Except.ok q.2)
  else (s, Except.error DSError.outOfRange)

/-- Modelled from the spec: StaticDisjointSet.union of disjointset.c, which
is not among the available source files.  Per the specification it validates
both indices before any mutation, raising an out-of-range error with the
state exactly as it was beforehand, and otherwise performs the core
union-by-rank merge. -/
def StaticDisjointSet.union (s : UF) (x y : Int) : UF × Except DSError Unit :=
  if (0 ≤ x ∧ x < (s.parent.length : Int)) ∧
      (0 ≤ y ∧ y < (s.parent.length : Int)) then
    (UnionFindFull.union s x.toNat y.toNat, Except.ok ())
  else (s, Except.error DSError.outOfRange)

/-! ### List access lemmas -/

theorem nth_set_self (l : List Nat) (i v : Nat) (h : i < l.length) :
    nth (l.set i v) i = v := by
  induction l generalizing i with
  | nil => simp at h
  | cons a l ih =>
    cases i with
    | zero => rfl
    | succ k => exact ih k (by simpa using h)

theorem nth_set_ne (l : List Nat) (i j v : Nat) (h : j ≠ i) :
    nth (l.set i v) j = nth l j := by
  induction l generalizing i j with
  | nil => rfl
  | cons a l ih =>
    cases i with
    | zero =>
      cases j with
      | zero => exact absurd rfl h
      | succ k => rfl
    | succ m =>
      cases j with
      | zero => rfl
      | succ k => exact ih m k (fun hk => h (by rw [hk]))

theorem nth_append_lt (l l2 : List Nat) (i : Nat) (h : i < l.length) :
    nth (l ++ l2) i = nth l i := by
  induction l generalizing i with
  | nil => simp at h
  | cons a l ih =>
    cases i with
    | zero => rfl
    | succ k => exact ih k (by simpa using h)

theorem nth_append_len (l : List Nat) (a : Nat) (l2 : List Nat) :
    nth (l ++ a :: l2) l.length = a := by
  induction l with
  | nil => rfl
  | cons b l ih => exact ih

theorem nth_range (n i : Nat) (h : i < n) : nth (List.range n) i = i := by
  induction n with
  | zero => omega
  | succ m ih =>
    rw [List.range_succ]
    rcases Nat.lt_or_ge i m with h1 | h1
    · rw [nth_append_lt _ _ _ (by simpa using h1)]
      exact ih h1
    · have h2 : i = m := by omega
      subst h2
      have h3 := nth_append_len (List.range i) i []
      rwa [List.length_range] at h3

theorem nth_replicate (n i : Nat) : nth (List.replicate n 0) i = 0 := by
  induction n generalizing i with
  | zero => cases i <;> rfl
  | succ m ih =>
    cases i with
    | zero => rfl
    | succ k => exact ih k

/-! ### Measure lemmas -/

theorem meas_pos (r : List Nat) {n x : Nat} (hx : x < n) : 0 < meas r n x := by
  apply Finset.card_pos.mpr
  exact ⟨x, Finset.mem_filter.mpr ⟨Finset.mem_range.mpr hx, le_refl _⟩⟩

theorem meas_le (r : List Nat) (n x : Nat) : meas r n x ≤ n := by
  calc meas r n x ≤ (Finset.range n).card := Finset.card_filter_le _ _
    _ = n := Finset.card_range n

theorem meas_lt_of_rank_lt {r : List Nat} {n x y : Nat} (hx : x < n)
    (h : nth r x < nth r y) : meas r n y < meas r n x := by
  have hsub : (Finset.range n).filter (fun z => nth r y ≤ nth r z) ⊆
      (Finset.range n).filter (fun z => nth r x ≤ nth r z) := by
    intro z hz
    have hz2 := Finset.mem_filter.mp hz
    exact Finset.mem_filter.mpr ⟨hz2.1, le_trans (le_of_lt h) hz2.2⟩
  apply Finset.card_lt_card
  apply (Finset.ssubset_iff_of_subset hsub).mpr
  refine ⟨x, Finset.mem_filter.mpr ⟨Finset.mem_range.mpr hx, le_refl _⟩, ?_⟩
  intro hmem
  exact absurd ((Finset.mem_filter.mp hmem).2) (by omega)

theorem meas_le_of_rank_le {r : List Nat} {n x y : Nat} (h : nth r x ≤ nth r y) :
    meas r n y ≤ meas r n x := by
  apply Finset.card_le_card
  intro z hz
  have hz2 := Finset.mem_filter.mp hz
  exact Finset.mem_filter.mpr ⟨hz2.1, le_trans h hz2.2⟩

/-! ### Root traversal lemmas -/

theorem rootFuel_of_root {p : List Nat} {x : Nat} (h : nth p x = x) :
    ∀ f, rootFuel f p x = x
  | 0 => rfl
  | f + 1 => by simp [rootFuel, h]

theorem rootFuel_spec {n : Nat} {p r : List Nat} (hinv : UFInv n ⟨p, r⟩) :
    ∀ m x, x < n → meas r n x ≤ m → ∀ f, meas r n x ≤ f →
      nth p (rootFuel f p x) = rootFuel f p x ∧ rootFuel f p x < n ∧
      rootFuel f p x = rootFuel (meas r n x) p x := by
  intro m
  induction m with
  | zero =>
    intro x hx hm
    exact absurd (meas_pos r hx) (by omega)
  | succ m ih =>
    intro x hx hm f hf
    by_cases hr : nth p x = x
    · rw [rootFuel_of_root hr f, rootFuel_of_root hr (meas r n x)]
      exact ⟨hr, hx, rfl⟩
    · have hpx : nth p x < n := hinv.closed x hx
      have hrk : nth r x < nth r (nth p x) := hinv.rankUp x hx hr
      have hml : meas r n (nth p x) < meas r n x := meas_lt_of_rank_lt hx hrk
      have h1 : 0 < meas r n x := meas_pos r hx
      obtain ⟨f1, rfl⟩ : ∃ f1, f = f1 + 1 := ⟨f - 1, by omega⟩
      obtain ⟨m1, hm1⟩ : ∃ m1, meas r n x = m1 + 1 := ⟨meas r n x - 1, by omega⟩
      have e1 : rootFuel (f1 + 1) p x = rootFuel f1 p (nth p x) := by
        simp [rootFuel, hr]
      have e2 : rootFuel (meas r n x) p x = rootFuel m1 p (nth p x) := by
        rw [hm1]; simp [rootFuel, hr]
      have ha := ih (nth p x) hpx (by omega) f1 (by omega)
      have hb := ih (nth p x) hpx (by omega) m1 (by omega)
      refine ⟨?_, ?_, ?_⟩
      · rw [e1]; exact ha.1
      · rw [e1]; exact ha.2.1
      · rw [e1, e2, ha.2.2, hb.2.2]

theorem rootD_eq_fuel {n : Nat} {p r : List Nat} (hinv : UFInv n ⟨p, r⟩)
    (x : Nat) (hx : x < n) (f : Nat) (hf : meas r n x ≤ f) :
    rootFuel f p x = rootD p x := by
  have h1 := rootFuel_spec hinv (meas r n x) x hx le_rfl f hf
  have h2 := rootFuel_spec hinv (meas r n x) x hx le_rfl p.length
    (by rw [hinv.plen]; exact meas_le r n x)
  rw [rootD, h1.2.2, h2.2.2]

theorem rootD_isRoot {n : Nat} {p r : List Nat} (hinv : UFInv n ⟨p, r⟩)
    (x : Nat) (hx : x < n) : nth p (rootD p x) = rootD p x := by
  have h := rootFuel_spec hinv (meas r n x) x hx le_rfl p.length
    (by rw [hinv.plen]; exact meas_le r n x)
  exact h.1

theorem rootD_lt {n : Nat} {p r : List Nat} (hinv : UFInv n ⟨p, r⟩)
    (x : Nat) (hx : x < n) : rootD p x < n := by
  have h := rootFuel_spec hinv (meas r n x) x hx le_rfl p.length
    (by rw [hinv.plen]; exact meas_le r n x)
  exact h.2.1

theorem rootD_of_root {p : List Nat} {x : Nat} (h : nth p x = x) :
    rootD p x = x :=
  rootFuel_of_root h p.length

theorem rootD_step {n : Nat} {p r : List Nat} (hinv : UFInv n ⟨p, r⟩)
    (x : Nat) (hx : x < n) (hr : nth p x ≠ x) :
    rootD p x = rootD p (nth p x) := by
  have hpx : nth p x < n := hinv.closed x hx
  have hrk : nth r x < nth r (nth p x) := hinv.rankUp x hx hr
  have hml : meas r n (nth p x) < meas r n x := meas_lt_of_rank_lt hx hrk
  have hmx : meas r n x ≤ n := meas_le r n x
  obtain ⟨f1, hf1⟩ : ∃ f1, p.length = f1 + 1 :=
    ⟨p.length - 1, by rw [hinv.plen]; omega⟩
  calc rootD p x = rootFuel (f1 + 1) p x := by rw [rootD, hf1]
    _ = rootFuel f1 p (nth p x) := by simp [rootFuel, hr]
    _ = rootD p (nth p x) := by
        apply rootD_eq_fuel hinv (nth p x) hpx f1
        have : f1 + 1 = n := by rw [← hf1, hinv.plen]
        omega

theorem root_of_rootD_self {n : Nat} {p r : List Nat} (hinv : UFInv n ⟨p, r⟩)
    (x : Nat) (hx : x < n) (h : rootD p x = x) : nth p x = x := by
  have h2 := rootD_isRoot hinv x hx
  rw [h] at h2
  exact h2

theorem rootD_idem {n : Nat} {p r : List Nat} (hinv : UFInv n ⟨p, r⟩)
    (x : Nat) (hx : x < n) : rootD p (rootD p x) = rootD p x :=
  rootD_of_root (rootD_isRoot hinv x hx)

theorem rank_le_rootD {n : Nat} {p r : List Nat} (hinv : UFInv n ⟨p, r⟩) :
    ∀ m x, x < n → meas r n x ≤ m →
      nth r x ≤ nth r (rootD p x) ∧
      (nth p x ≠ x → nth r x < nth r (rootD p x)) := by
  intro m
  induction m with
  | zero =>
    intro x hx hm
    exact absurd (meas_pos r hx) (by omega)
  | succ m ih =>
    intro x hx hm
    by_cases hr : nth p x = x
    · rw [rootD_of_root hr]
      exact ⟨le_rfl, fun h => absurd hr h⟩
    · have hpx : nth p x < n := hinv.closed x hx
      have hrk : nth r x < nth r (nth p x) := hinv.rankUp x hx hr
      have hml : meas r n (nth p x) < meas r n x := meas_lt_of_rank_lt hx hrk
      have hstep := rootD_step hinv x hx hr
      have h2 := ih (nth p x) hpx (by omega)
      rw [hstep]
      exact ⟨le_of_lt (lt_of_lt_of_le hrk h2.1),
        fun _ => lt_of_lt_of_le hrk h2.1⟩

/-! ### Parent iteration lemmas -/

theorem pIter_succ (p : List Nat) (k x : Nat) :
    pIter p (k + 1) x = pIter p k (nth p x) := rfl

theorem pIter_of_root {p : List Nat} {x : Nat} (h : nth p x = x) :
    ∀ k, pIter p k x = x
  | 0 => rfl
  | k + 1 => by
    rw [pIter_succ, h]
    exact pIter_of_root h k

theorem pIter_bounds {n : Nat} {p r : List Nat} (hinv : UFInv n ⟨p, r⟩) :
    ∀ k x, x < n → pIter p k x < n ∧ nth r x ≤ nth r (pIter p k x) := by
  intro k
  induction k with
  | zero => intro x hx; exact ⟨hx, le_rfl⟩
  | succ k ih =>
    intro x hx
    have hpx : nth p x < n := hinv.closed x hx
    have h2 := ih (nth p x) hpx
    rw [pIter_succ]
    refine ⟨h2.1, le_trans ?_ h2.2⟩
    by_cases hr : nth p x = x
    · rw [hr]
    · exact le_of_lt (hinv.rankUp x hx hr)

theorem exists_pIter_root {n : Nat} {p r : List Nat} (hinv : UFInv n ⟨p, r⟩) :
    ∀ m x, x < n → meas r n x ≤ m →
      ∃ k, k ≤ meas r n x ∧ nth p (pIter p k x) = pIter p k x ∧
        pIter p k x = rootD p x ∧ nth r x + k ≤ nth r (pIter p k x) := by
  intro m
  induction m with
  | zero =>
    intro x hx hm
    exact absurd (meas_pos r hx) (by omega)
  | succ m ih =>
    intro x hx hm
    by_cases hr : nth p x = x
    · refine ⟨0, Nat.zero_le _, hr, (rootD_of_root hr).symm, ?_⟩
      simp [pIter]
    · have hpx : nth p x < n := hinv.closed x hx
      have hrk : nth r x < nth r (nth p x) := hinv.rankUp x hx hr
      have hml : meas r n (nth p x) < meas r n x := meas_lt_of_rank_lt hx hrk
      obtain ⟨k, hk1, hk2, hk3, hk4⟩ := ih (nth p x) hpx (by omega)
      refine ⟨k + 1, by omega, ?_, ?_, ?_⟩
      · rw [pIter_succ]; exact hk2
      · rw [pIter_succ, hk3]
        exact (rootD_step hinv x hx hr).symm
      · rw [pIter_succ]; omega

theorem pIter_acyclic {n : Nat} {p r : List Nat} (hinv : UFInv n ⟨p, r⟩)
    (x : Nat) (hx : x < n) (k : Nat) (hk : 0 < k) (hcyc : pIter p k x = x) :
    nth p x = x := by
  by_contra hr
  obtain ⟨k1, rfl⟩ : ∃ k1, k = k1 + 1 := ⟨k - 1, by omega⟩
  have hpx : nth p x < n := hinv.closed x hx
  have hrk : nth r x < nth r (nth p x) := hinv.rankUp x hx hr
  have hb := pIter_bounds hinv k1 (nth p x) hpx
  rw [pIter_succ] at hcyc
  rw [hcyc] at hb
  omega

/-! ### Updating one parent entry -/

theorem UFInv.set_parent {n : Nat} {p r : List Nat} {a b : Nat}
    (hinv : UFInv n ⟨p, r⟩) (ha : a < n) (hb : b < n)
    (hrk : nth r a < nth r b) : UFInv n ⟨p.set a b, r⟩ := by
  have hlen : a < p.length := by rw [hinv.plen]; exact ha
  refine ⟨by simp [hinv.plen], hinv.rlen, ?_, ?_⟩
  · intro x hx
    by_cases hxa : x = a
    · subst hxa
      rw [nth_set_self _ _ _ hlen]
      exact hb
    · rw [nth_set_ne _ _ _ _ hxa]
      exact hinv.closed x hx
  · intro x hx hne
    by_cases hxa : x = a
    · subst hxa
      rw [nth_set_self _ _ _ hlen]
      exact hrk
    · rw [nth_set_ne _ _ _ _ hxa] at hne ⊢
      exact hinv.rankUp x hx hne

theorem rootD_set_eq {n : Nat} {p r : List Nat} {a b : Nat}
    (hinv : UFInv n ⟨p, r⟩) (ha : a < n) (hb : b < n)
    (hrk : nth r a < nth r b) (hroot : rootD p b = rootD p a) :
    ∀ y, y < n → rootD (p.set a b) y = rootD p y := by
  have hinv2 : UFInv n ⟨p.set a b, r⟩ := hinv.set_parent ha hb hrk
  have hlen : a < p.length := by rw [hinv.plen]; exact ha
  suffices h : ∀ m y, y < n → meas r n y ≤ m → rootD (p.set a b) y = rootD p y by
    intro y hy
    exact h (meas r n y) y hy le_rfl
  intro m
  induction m with
  | zero =>
    intro y hy hm
    exact absurd (meas_pos r hy) (by omega)
  | succ m ih =>
    intro y hy hm
    by_cases hr2 : nth (p.set a b) y = y
    · have hya : y ≠ a := by
        intro h
        subst h
        rw [nth_set_self _ _ _ hlen] at hr2
        rw [hr2] at hrk
        exact absurd hrk (lt_irrefl _)
      have hr1 : nth p y = y := by
        rw [nth_set_ne _ _ _ _ hya] at hr2
        exact hr2
      rw [rootD_of_root hr2, rootD_of_root hr1]
    · have hstep2 : rootD (p.set a b) y = rootD (p.set a b) (nth (p.set a b) y) :=
        rootD_step hinv2 y hy hr2
      have hml : meas r n (nth (p.set a b) y) < meas r n y :=
        meas_lt_of_rank_lt hy (hinv2.rankUp y hy hr2)
      by_cases hya : y = a
      · subst hya
        have hw : nth (p.set y b) y = b := nth_set_self _ _ _ hlen
        rw [hstep2, hw]
        rw [hw] at hml
        rw [ih b hb (by omega)]
        rw [hroot]
      · have hw : nth (p.set a b) y = nth p y := nth_set_ne _ _ _ _ hya
        have hr1 : nth p y ≠ y := by
          rw [hw] at hr2
          exact hr2
        rw [hw] at hml
        rw [hstep2, hw, ih (nth p y) (hinv.closed y hy) (by omega)]
        exact (rootD_step hinv y hy hr1).symm

theorem rootD_link {n : Nat} {p r r2 : List Nat} {a b : Nat}
    (hinv : UFInv n ⟨p, r⟩) (hinv2 : UFInv n ⟨p.set a b, r2⟩)
    (ha : a < n) (hb : b < n) (hra : nth p a = a) (hrb : nth p b = b)
    (hab : a ≠ b) :
    ∀ z, z < n → rootD (p.set a b) z = if rootD p z = a then b else rootD p z := by
  have hlen : a < p.length := by rw [hinv.plen]; exact ha
  suffices h : ∀ m z, z < n → meas r2 n z ≤ m →
      rootD (p.set a b) z = if rootD p z = a then b else rootD p z by
    intro z hz
    exact h (meas r2 n z) z hz le_rfl
  intro m
  induction m with
  | zero =>
    intro z hz hm
    exact absurd (meas_pos r2 hz) (by omega)
  | succ m ih =>
    intro z hz hm
    by_cases hr2 : nth (p.set a b) z = z
    · have hza : z ≠ a := by
        intro h
        subst h
        rw [nth_set_self _ _ _ hlen] at hr2
        exact hab hr2.symm
      have hz1 : nth p z = z := by
        rw [nth_set_ne _ _ _ _ hza] at hr2
        exact hr2
      rw [rootD_of_root hr2, rootD_of_root hz1, if_neg hza]
    · have hstep2 : rootD (p.set a b) z = rootD (p.set a b) (nth (p.set a b) z) :=
        rootD_step hinv2 z hz hr2
      have hml : meas r2 n (nth (p.set a b) z) < meas r2 n z :=
        meas_lt_of_rank_lt hz (hinv2.rankUp z hz hr2)
      by_cases hza : z = a
      · subst hza
        have hw : nth (p.set z b) z = b := nth_set_self _ _ _ hlen
        rw [hw] at hml
        rw [hstep2, hw, ih b hb (by omega)]
        rw [rootD_of_root hrb, rootD_of_root hra]
        rw [if_neg (fun h => hab h.symm), if_pos rfl]
      · have hw : nth (p.set a b) z = nth p z := nth_set_ne _ _ _ _ hza
        have hr1 : nth p z ≠ z := by
          rw [hw] at hr2
          exact hr2
        rw [hw] at hml
        rw [hstep2, hw, ih (nth p z) (hinv.closed z hz) (by omega)]
        rw [← rootD_step hinv z hz hr1]

theorem UFInv.link_eq {n : Nat} {p r : List Nat} {rx ry : Nat}
    (hinv : UFInv n ⟨p, r⟩) (hx : rx < n) (hy : ry < n)
    (hrx : nth p rx = rx) (hry : nth p ry = ry) (hne : rx ≠ ry)
    (hrk : nth r rx = nth r ry) :
    UFInv n ⟨p.set ry rx, r.set rx (nth r rx + 1)⟩ := by
  have hplen : ry < p.length := by rw [hinv.plen]; exact hy
  have hrlen : rx < r.length := by rw [hinv.rlen]; exact hx
  refine ⟨by simp [hinv.plen], by simp [hinv.rlen], ?_, ?_⟩
  · intro x hx2
    by_cases h : x = ry
    · subst h
      rw [nth_set_self _ _ _ hplen]
      exact hx
    · rw [nth_set_ne _ _ _ _ h]
      exact hinv.closed x hx2
  · intro x hx2 hne2
    by_cases hxr : x = ry
    · subst hxr
      rw [nth_set_self _ _ _ hplen] at hne2 ⊢
      rw [nth_set_ne _ _ _ _ (fun h => hne h.symm)]
      rw [nth_set_self _ _ _ hrlen]
      omega
    · rw [nth_set_ne _ _ _ _ hxr] at hne2 ⊢
      have hbase : nth r x < nth r (nth p x) := hinv.rankUp x hx2 hne2
      by_cases hxa : x = rx
      · subst hxa
        exact absurd hrx hne2
      · rw [nth_set_ne _ _ _ _ hxa]
        by_cases hpa : nth p x = rx
        · rw [hpa] at hbase ⊢
          rw [nth_set_self _ _ _ hrlen]
          omega
        · rw [nth_set_ne _ _ _ _ hpa]
          exact hbase

theorem UFInv.mk0 (n : Nat) : UFInv n (UF.mk0 n) := by
  refine ⟨by simp [UF.mk0], by simp [UF.mk0], ?_, ?_⟩
  · intro x hx
    show nth (List.range n) x < n
    rw [nth_range n x hx]
    exact hx
  · intro x hx hne
    exact absurd (nth_range n x hx) hne

/-! ### Find specifications -/

theorem fullFindAux_spec {n : Nat} {r : List Nat} :
    ∀ m p x f, UFInv n ⟨p, r⟩ → x < n → meas r n x ≤ m → meas r n x ≤ f →
      (UnionFindFull.findAux f p x).2 = rootD p x ∧
      (UnionFindFull.findAux f p x).1.length = p.length ∧
      UFInv n ⟨(UnionFindFull.findAux f p x).1, r⟩ ∧
      (∀ y, y < n → rootD (UnionFindFull.findAux f p x).1 y = rootD p y) ∧
      (∀ k, nth (UnionFindFull.findAux f p x).1 (pIter p k x) = rootD p x) := by
  intro m
  induction m with
  | zero =>
    intro p x f hinv hx hm
    exact absurd (meas_pos r hx) (by omega)
  | succ m ih =>
    intro p x f hinv hx hm hf
    have hpos := meas_pos r hx
    obtain ⟨f1, rfl⟩ : ∃ f1, f = f1 + 1 := ⟨f - 1, by omega⟩
    by_cases hr : nth p x = x
    · have e : UnionFindFull.findAux (f1 + 1) p x = (p, x) := by
        simp [UnionFindFull.findAux, hr]
      rw [e]
      refine ⟨(rootD_of_root hr).symm, rfl, hinv, fun y hy => rfl, ?_⟩
      intro k
      rw [pIter_of_root hr k, rootD_of_root hr]
      exact hr
    · have hpx : nth p x < n := hinv.closed x hx
      have hrk : nth r x < nth r (nth p x) := hinv.rankUp x hx hr
      have hml : meas r n (nth p x) < meas r n x := meas_lt_of_rank_lt hx hrk
      have e1 : (UnionFindFull.findAux (f1 + 1) p x).2 =
          (UnionFindFull.findAux f1 p (nth p x)).2 := by
        simp [UnionFindFull.findAux, hr]
      have e2 : (UnionFindFull.findAux (f1 + 1) p x).1 =
          (UnionFindFull.findAux f1 p (nth p x)).1.set x
            (UnionFindFull.findAux f1 p (nth p x)).2 := by
        simp [UnionFindFull.findAux, hr]
      obtain ⟨ih1, ih2, ih3, ih4, ih5⟩ :=
        ih p (nth p x) f1 hinv hpx (by omega) (by omega)
      have hbx : rootD p (nth p x) = rootD p x := (rootD_step hinv x hx hr).symm
      rw [hbx] at ih1 ih5
      have hblt : rootD p x < n := rootD_lt hinv x hx
      have hrkb : nth r x < nth r (rootD p x) :=
        (rank_le_rootD hinv (meas r n x) x hx le_rfl).2 hr
      have hxlen : x < (UnionFindFull.findAux f1 p (nth p x)).1.length := by
        rw [ih2, hinv.plen]
        exact hx
      have hrkb2 : nth r x < nth r (UnionFindFull.findAux f1 p (nth p x)).2 := by
        rw [ih1]
        exact hrkb
      have hq2lt : (UnionFindFull.findAux f1 p (nth p x)).2 < n := by
        rw [ih1]
        exact hblt
      have hroots : rootD (UnionFindFull.findAux f1 p (nth p x)).1
          (UnionFindFull.findAux f1 p (nth p x)).2 =
          rootD (UnionFindFull.findAux f1 p (nth p x)).1 x := by
        rw [ih4 _ hq2lt, ih4 x hx, ih1, rootD_idem hinv x hx]
      refine ⟨by rw [e1]; exact ih1, ?_, ?_, ?_, ?_⟩
      · rw [e2, List.length_set, ih2]
      · rw [e2]
        exact ih3.set_parent hx hq2lt hrkb2
      · intro y hy
        rw [e2, rootD_set_eq ih3 hx hq2lt hrkb2 hroots y hy, ih4 y hy]
      · intro k
        rw [e2]
        cases k with
        | zero =>
          show nth ((UnionFindFull.findAux f1 p (nth p x)).1.set x
            (UnionFindFull.findAux f1 p (nth p x)).2) x = rootD p x
          rw [nth_set_self _ _ _ hxlen]
          exact ih1
        | succ k =>
          rw [pIter_succ]
          by_cases hkx : pIter p k (nth p x) = x
          · rw [hkx, nth_set_self _ _ _ hxlen]
            exact ih1
          · rw [nth_set_ne _ _ _ _ hkx]
            exact ih5 k

theorem fullFind_spec : FindSpec UnionFindFull.find := by
  intro n s x hinv hx
  obtain ⟨p, r⟩ := s
  have hmeas : meas r n x ≤ p.length := by
    rw [hinv.plen]
    exact meas_le r n x
  obtain ⟨h1, h2, h3, h4, h5⟩ :=
    fullFindAux_spec (meas r n x) p x p.length hinv hx le_rfl hmeas
  exact ⟨h1, h3, rfl, h4⟩

theorem halvingFindAux_spec {n : Nat} {r : List Nat} :
    ∀ m p x f, UFInv n ⟨p, r⟩ → x < n → meas r n x ≤ m → meas r n x ≤ f →
      (UnionFindHalving.findAux f p x).2 = rootD p x ∧
      (UnionFindHalving.findAux f p x).1.length = p.length ∧
      UFInv n ⟨(UnionFindHalving.findAux f p x).1, r⟩ ∧
      (∀ y, y < n → rootD (UnionFindHalving.findAux f p x).1 y = rootD p y) := by
  intro m
  induction m with
  | zero =>
    intro p x f hinv hx hm
    exact absurd (meas_pos r hx) (by omega)
  | succ m ih =>
    intro p x f hinv hx hm hf
    have hpos := meas_pos r hx
    obtain ⟨f1, rfl⟩ : ∃ f1, f = f1 + 1 := ⟨f - 1, by omega⟩
    by_cases hr : nth p x = x
    · have e : UnionFindHalving.findAux (f1 + 1) p x = (p, x) := by
        simp [UnionFindHalving.findAux, hr]
      rw [e]
      exact ⟨(rootD_of_root hr).symm, rfl, hinv, fun y hy => rfl⟩
    · have hpx : nth p x < n := hinv.closed x hx
      have hrk : nth r x < nth r (nth p x) := hinv.rankUp x hx hr
      have hml : meas r n (nth p x) < meas r n x := meas_lt_of_rank_lt hx hrk
      have hg : nth p (nth p x) < n := hinv.closed (nth p x) hpx
      have hrkg : nth r x < nth r (nth p (nth p x)) := by
        by_cases hpr : nth p (nth p x) = nth p x
        · rw [hpr]
          exact hrk
        · exact lt_trans hrk (hinv.rankUp (nth p x) hpx hpr)
      have hrkg2 : nth r (nth p x) ≤ nth r (nth p (nth p x)) := by
        by_cases hpr : nth p (nth p x) = nth p x
        · rw [hpr]
        · exact le_of_lt (hinv.rankUp (nth p x) hpx hpr)
      have hrootg : rootD p (nth p (nth p x)) = rootD p x := by
        rw [rootD_step hinv x hx hr]
        by_cases hpr : nth p (nth p x) = nth p x
        · rw [hpr]
        · exact (rootD_step hinv (nth p x) hpx hpr).symm
      have hinv1 : UFInv n ⟨p.set x (nth p (nth p x)), r⟩ :=
        hinv.set_parent hx hg hrkg
      have hpres1 : ∀ y, y < n → rootD (p.set x (nth p (nth p x))) y = rootD p y :=
        rootD_set_eq hinv hx hg hrkg hrootg
      have hmg : meas r n (nth p (nth p x)) < meas r n x :=
        lt_of_le_of_lt (meas_le_of_rank_le hrkg2) hml
      have e : UnionFindHalving.findAux (f1 + 1) p x =
          UnionFindHalving.findAux f1 (p.set x (nth p (nth p x))) (nth p (nth p x)) := by
        simp [UnionFindHalving.findAux, hr]
      obtain ⟨ih1, ih2, ih3, ih4⟩ :=
        ih (p.set x (nth p (nth p x))) (nth p (nth p x)) f1 hinv1 hg (by omega) (by omega)
      rw [e]
      refine ⟨?_, ?_, ih3, ?_⟩
      · rw [ih1, hpres1 _ hg, hrootg]
      · rw [ih2, List.length_set]
      · intro y hy
        rw [ih4 y hy, hpres1 y hy]

theorem halvingFind_spec : FindSpec UnionFindHalving.find := by
  intro n s x hinv hx
  obtain ⟨p, r⟩ := s
  have hmeas : meas r n x ≤ p.length := by
    rw [hinv.plen]
    exact meas_le r n x
  obtain ⟨h1, h2, h3, h4⟩ :=
    halvingFindAux_spec (meas r n x) p x p.length hinv hx le_rfl hmeas
  exact ⟨h1, h3, rfl, h4⟩

theorem splittingFindAux_spec {n : Nat} {r : List Nat} :
    ∀ m p x f, UFInv n ⟨p, r⟩ → x < n → meas r n x ≤ m → meas r n x ≤ f →
      (UnionFindSplitting.findAux f p x).2 = rootD p x ∧
      (UnionFindSplitting.findAux f p x).1.length = p.length ∧
      UFInv n ⟨(UnionFindSplitting.findAux f p x).1, r⟩ ∧
      (∀ y, y < n → rootD (UnionFindSplitting.findAux f p x).1 y = rootD p y) := by
  intro m
  induction m with
  | zero =>
    intro p x f hinv hx hm
    exact absurd (meas_pos r hx) (by omega)
  | succ m ih =>
    intro p x f hinv hx hm hf
    have hpos := meas_pos r hx
    obtain ⟨f1, rfl⟩ : ∃ f1, f = f1 + 1 := ⟨f - 1, by omega⟩
    by_cases hr : nth p x = x
    · have e : UnionFindSplitting.findAux (f1 + 1) p x = (p, x) := by
        simp [UnionFindSplitting.findAux, hr]
      rw [e]
      exact ⟨(rootD_of_root hr).symm, rfl, hinv, fun y hy => rfl⟩
    · have hpx : nth p x < n := hinv.closed x hx
      have hrk : nth r x < nth r (nth p x) := hinv.rankUp x hx hr
      have hml : meas r n (nth p x) < meas r n x := meas_lt_of_rank_lt hx hrk
      have hg : nth p (nth p x) < n := hinv.closed (nth p x) hpx
      have hrkg : nth r x < nth r (nth p (nth p x)) := by
        by_cases hpr : nth p (nth p x) = nth p x
        · rw [hpr]
          exact hrk
        · exact lt_trans hrk (hinv.rankUp (nth p x) hpx hpr)
      have hrootg : rootD p (nth p (nth p x)) = rootD p x := by
        rw [rootD_step hinv x hx hr]
        by_cases hpr : nth p (nth p x) = nth p x
        · rw [hpr]
        · exact (rootD_step hinv (nth p x) hpx hpr).symm
      have hinv1 : UFInv n ⟨p.set x (nth p (nth p x)), r⟩ :=
        hinv.set_parent hx hg hrkg
      have hpres1 : ∀ y, y < n → rootD (p.set x (nth p (nth p x))) y = rootD p y :=
        rootD_set_eq hinv hx hg hrkg hrootg
      have e : UnionFindSplitting.findAux (f1 + 1) p x =
          UnionFindSplitting.findAux f1 (p.set x (nth p (nth p x))) (nth p x) := by
        simp [UnionFindSplitting.findAux, hr]
      obtain ⟨ih1, ih2, ih3, ih4⟩ :=
        ih (p.set x (nth p (nth p x))) (nth p x) f1 hinv1 hpx (by omega) (by omega)
      rw [e]
      refine ⟨?_, ?_, ih3, ?_⟩
      · rw [ih1, hpres1 _ hpx]
        exact (rootD_step hinv x hx hr).symm
      · rw [ih2, List.length_set]
      · intro y hy
        rw [ih4 y hy, hpres1 y hy]

theorem splittingFind_spec : FindSpec UnionFindSplitting.find := by
  intro n s x hinv hx
  obtain ⟨p, r⟩ := s
  have hmeas : meas r n x ≤ p.length := by
    rw [hinv.plen]
    exact meas_le r n x
  obtain ⟨h1, h2, h3, h4⟩ :=
    splittingFindAux_spec (meas r n x) p x p.length hinv hx le_rfl hmeas
  exact ⟨h1, h3, rfl, h4⟩

/-! ### Union specification -/

theorem mkUnion_spec (f : UF → Nat → UF × Nat) (hf : FindSpec f) (n : Nat)
    (s : UF) (x y : Nat) (hinv : UFInv n s) (hx : x < n) (hy : y < n) :
    UFInv n (mkUnion f s x y) ∧
    (rootD s.parent x = rootD s.parent y →
      mkUnion f s x y = (f (f s x).1 y).1) ∧
    (rootD s.parent x = rootD s.parent y →
      (∀ z, z < n → rootD (mkUnion f s x y).parent z = rootD s.parent z) ∧
      (mkUnion f s x y).rank = s.rank) ∧
    (rootD s.parent x ≠ rootD s.parent y →
      nth s.rank (rootD s.parent x) < nth s.rank (rootD s.parent y) →
      (mkUnion f s x y).parent =
        (f (f s x).1 y).1.parent.set (rootD s.parent x) (rootD s.parent y) ∧
      (mkUnion f s x y).rank = s.rank ∧
      (∀ z, z < n → rootD (mkUnion f s x y).parent z =
        if rootD s.parent z = rootD s.parent x then rootD s.parent y
        else rootD s.parent z)) ∧
    (rootD s.parent x ≠ rootD s.parent y →
      nth s.rank (rootD s.parent y) < nth s.rank (rootD s.parent x) →
      (mkUnion f s x y).parent =
        (f (f s x).1 y).1.parent.set (rootD s.parent y) (rootD s.parent x) ∧
      (mkUnion f s x y).rank = s.rank ∧
      (∀ z, z < n → rootD (mkUnion f s x y).parent z =
        if rootD s.parent z = rootD s.parent y then rootD s.parent x
        else rootD s.parent z)) ∧
    (rootD s.parent x ≠ rootD s.parent y →
      nth s.rank (rootD s.parent x) = nth s.rank (rootD s.parent y) →
      (mkUnion f s x y).parent =
        (f (f s x).1 y).1.parent.set (rootD s.parent y) (rootD s.parent x) ∧
      (mkUnion f s x y).rank =
        s.rank.set (rootD s.parent x) (nth s.rank (rootD s.parent x) + 1) ∧
      (∀ z, z < n → rootD (mkUnion f s x y).parent z =
        if rootD s.parent z = rootD s.parent y then rootD s.parent x
        else rootD s.parent z)) := by
  obtain ⟨ha1, ha2, ha3, ha4⟩ := hf n s x hinv hx
  obtain ⟨hb1, hb2, hb3, hb4⟩ := hf n (f s x).1 y ha2 hy
  have hb1x : (f (f s x).1 y).2 = rootD s.parent y := by
    rw [hb1, ha4 y hy]
  have hbrank : (f (f s x).1 y).1.rank = s.rank := by
    rw [hb3, ha3]
  have hbpres : ∀ z, z < n →
      rootD (f (f s x).1 y).1.parent z = rootD s.parent z := by
    intro z hz
    rw [hb4 z hz, ha4 z hz]
  have hrxlt : rootD s.parent x < n := rootD_lt hinv x hx
  have hrylt : rootD s.parent y < n := rootD_lt hinv y hy
  have hb2s : UFInv n ⟨(f (f s x).1 y).1.parent, s.rank⟩ := by
    rw [← hbrank]
    exact hb2
  have hrxroot : nth (f (f s x).1 y).1.parent (rootD s.parent x) =
      rootD s.parent x := by
    apply root_of_rootD_self hb2s _ hrxlt
    rw [hbpres _ hrxlt]
    exact rootD_idem hinv x hx
  have hryroot : nth (f (f s x).1 y).1.parent (rootD s.parent y) =
      rootD s.parent y := by
    apply root_of_rootD_self hb2s _ hrylt
    rw [hbpres _ hrylt]
    exact rootD_idem hinv y hy
  have e : mkUnion f s x y =
      (if rootD s.parent x = rootD s.parent y then (f (f s x).1 y).1
       else if nth s.rank (rootD s.parent x) < nth s.rank (rootD s.parent y) then
         ⟨(f (f s x).1 y).1.parent.set (rootD s.parent x) (rootD s.parent y), s.rank⟩
       else if nth s.rank (rootD s.parent y) < nth s.rank (rootD s.parent x) then
         ⟨(f (f s x).1 y).1.parent.set (rootD s.parent y) (rootD s.parent x), s.rank⟩
       else
         ⟨(f (f s x).1 y).1.parent.set (rootD s.parent y) (rootD s.parent x),
          s.rank.set (rootD s.parent x) (nth s.rank (rootD s.parent x) + 1)⟩) := by
    simp only [mkUnion]
    rw [ha1, hb1x, hbrank]
  by_cases h1 : rootD s.parent x = rootD s.parent y
  · rw [e, if_pos h1]
    refine ⟨hb2, fun _ => rfl, fun _ => ⟨hbpres, hbrank⟩, ?_, ?_, ?_⟩
    · intro hne
      exact absurd h1 hne
    · intro hne
      exact absurd h1 hne
    · intro hne
      exact absurd h1 hne
  · rcases Nat.lt_trichotomy (nth s.rank (rootD s.parent x))
        (nth s.rank (rootD s.parent y)) with hlt | heq | hgt
    · rw [e, if_neg h1, if_pos hlt]
      have hinv2 : UFInv n
          ⟨(f (f s x).1 y).1.parent.set (rootD s.parent x) (rootD s.parent y),
            s.rank⟩ :=
        hb2s.set_parent hrxlt hrylt hlt
      have hchar := rootD_link hb2s hinv2 hrxlt hrylt hrxroot hryroot h1
      refine ⟨hinv2, ?_, ?_, ?_, ?_, ?_⟩
      · intro hc
        exact absurd hc h1
      · intro hc
        exact absurd hc h1
      · intro _ _
        refine ⟨rfl, rfl, ?_⟩
        intro z hz
        rw [hchar z hz, hbpres z hz]
      · intro _ hgt2
        omega
      · intro _ heq2
        omega
    · have hlt2 : ¬ nth s.rank (rootD s.parent x) < nth s.rank (rootD s.parent y) := by
        omega
      have hgt2 : ¬ nth s.rank (rootD s.parent y) < nth s.rank (rootD s.parent x) := by
        omega
      rw [e, if_neg h1, if_neg hlt2, if_neg hgt2]
      have hinv2 : UFInv n
          ⟨(f (f s x).1 y).1.parent.set (rootD s.parent y) (rootD s.parent x),
            s.rank.set (rootD s.parent x) (nth s.rank (rootD s.parent x) + 1)⟩ :=
        hb2s.link_eq hrxlt hrylt hrxroot hryroot h1 heq
      have hchar := rootD_link hb2s hinv2 hrylt hrxlt hryroot hrxroot
        (fun h => h1 h.symm)
      refine ⟨hinv2, ?_, ?_, ?_, ?_, ?_⟩
      · intro hc
        exact absurd hc h1
      · intro hc
        exact absurd hc h1
      · intro _ hlt3
        omega
      · intro _ hgt3
        omega
      · intro _ _
        refine ⟨rfl, rfl, ?_⟩
        intro z hz
        rw [hchar z hz, hbpres z hz]
    · have hlt2 : ¬ nth s.rank (rootD s.parent x) < nth s.rank (rootD s.parent y) := by
        omega
      rw [e, if_neg h1, if_neg hlt2, if_pos hgt]
      have hinv2 : UFInv n
          ⟨(f (f s x).1 y).1.parent.set (rootD s.parent y) (rootD s.parent x),
            s.rank⟩ :=
        hb2s.set_parent hrylt hrxlt hgt
      have hchar := rootD_link hb2s hinv2 hrylt hrxlt hryroot hrxroot
        (fun h => h1 h.symm)
      refine ⟨hinv2, ?_, ?_, ?_, ?_, ?_⟩
      · intro hc
        exact absurd hc h1
      · intro hc
        exact absurd hc h1
      · intro _ hlt3
        omega
      · intro _ _
        refine ⟨rfl, rfl, ?_⟩
        intro z hz
        rw [hchar z hz, hbpres z hz]
      · intro _ heq3
        omega

/-! ### Invariant on reachable states -/

theorem reachable_inv {n : Nat} {s : UF} (h : Reachable n s) : UFInv n s := by
  induction h with
  | base => exact UFInv.mk0 n
  | findFull hs hx ih =>
    exact (fullFind_spec _ _ _ ih hx).2.1
  | findHalving hs hx ih =>
    exact (halvingFind_spec _ _ _ ih hx).2.1
  | findSplitting hs hx ih =>
    exact (splittingFind_spec _ _ _ ih hx).2.1
  | unionFull hs hx hy ih =>
    exact (mkUnion_spec _ fullFind_spec _ _ _ _ ih hx hy).1
  | unionHalving hs hx hy ih =>
    exact (mkUnion_spec _ halvingFind_spec _ _ _ _ ih hx hy).1
  | unionSplitting hs hx hy ih =>
    exact (mkUnion_spec _ splittingFind_spec _ _ _ _ ih hx hy).1

/-! ### Cross-strategy bisimulation -/

theorem applyOp_inv (f : UF → Nat → UF × Nat) (hf : FindSpec f) {n : Nat}
    {s : UF} (hinv : UFInv n s) (op : Op) (hok : Op.ok n op = true) :
    UFInv n (applyOp f s op) := by
  cases op with
  | find x =>
    have hx : x < n := by simpa [Op.ok] using hok
    exact (hf n s x hinv hx).2.1
  | union x y =>
    have hxy : x < n ∧ y < n := by simpa [Op.ok] using hok
    exact (mkUnion_spec f hf n s x y hinv hxy.1 hxy.2).1

theorem applyOp_abs (f g : UF → Nat → UF × Nat) (hf : FindSpec f)
    (hg : FindSpec g) {n : Nat} {s1 s2 : UF} (h1 : UFInv n s1) (h2 : UFInv n s2)
    (hroot : ∀ z, z < n → rootD s1.parent z = rootD s2.parent z)
    (hrank : s1.rank = s2.rank) (op : Op) (hok : Op.ok n op = true) :
    (∀ z, z < n →
      rootD (applyOp f s1 op).parent z = rootD (applyOp g s2 op).parent z) ∧
    (applyOp f s1 op).rank = (applyOp g s2 op).rank := by
  cases op with
  | find x =>
    have hx : x < n := by simpa [Op.ok] using hok
    obtain ⟨_, _, hr1, hp1⟩ := hf n s1 x h1 hx
    obtain ⟨_, _, hr2, hp2⟩ := hg n s2 x h2 hx
    constructor
    · intro z hz
      show rootD (f s1 x).1.parent z = rootD (g s2 x).1.parent z
      rw [hp1 z hz, hp2 z hz]
      exact hroot z hz
    · show (f s1 x).1.rank = (g s2 x).1.rank
      rw [hr1, hr2, hrank]
  | union x y =>
    have hxy : x < n ∧ y < n := by simpa [Op.ok] using hok
    obtain ⟨hx, hy⟩ := hxy
    have hrx : rootD s1.parent x = rootD s2.parent x := hroot x hx
    have hry : rootD s1.parent y = rootD s2.parent y := hroot y hy
    have spec1 := mkUnion_spec f hf n s1 x y h1 hx hy
    have spec2 := mkUnion_spec g hg n s2 x y h2 hx hy
    show (∀ z, z < n →
        rootD (mkUnion f s1 x y).parent z = rootD (mkUnion g s2 x y).parent z) ∧
      (mkUnion f s1 x y).rank = (mkUnion g s2 x y).rank
    by_cases hcase : rootD s1.parent x = rootD s1.parent y
    · have hcase2 : rootD s2.parent x = rootD s2.parent y := by
        rw [← hrx, ← hry]
        exact hcase
      obtain ⟨c1p, c1r⟩ := spec1.2.2.1 hcase
      obtain ⟨c2p, c2r⟩ := spec2.2.2.1 hcase2
      constructor
      · intro z hz
        rw [c1p z hz, c2p z hz]
        exact hroot z hz
      · rw [c1r, c2r, hrank]
    · have hcase2 : ¬ rootD s2.parent x = rootD s2.parent y := by
        rw [← hrx, ← hry]
        exact hcase
      have hrk2x : nth s2.rank (rootD s2.parent x) =
          nth s1.rank (rootD s1.parent x) := by
        rw [hrx, hrank]
      have hrk2y : nth s2.rank (rootD s2.parent y) =
          nth s1.rank (rootD s1.parent y) := by
        rw [hry, hrank]
      rcases Nat.lt_trichotomy (nth s1.rank (rootD s1.parent x))
          (nth s1.rank (rootD s1.parent y)) with hlt | heq | hgt
      · obtain ⟨_, c1r, c1c⟩ := spec1.2.2.2.1 hcase hlt
        obtain ⟨_, c2r, c2c⟩ := spec2.2.2.2.1 hcase2 (by omega)
        constructor
        · intro z hz
          rw [c1c z hz, c2c z hz, hroot z hz, hrx, hry]
        · rw [c1r, c2r, hrank]
      · obtain ⟨_, c1r, c1c⟩ := spec1.2.2.2.2.2 hcase heq
        obtain ⟨_, c2r, c2c⟩ := spec2.2.2.2.2.2 hcase2 (by omega)
        constructor
        · intro z hz
          rw [c1c z hz, c2c z hz, hroot z hz, hrx, hry]
        · rw [c1r, c2r, hrank, hrx]
      · obtain ⟨_, c1r, c1c⟩ := spec1.2.2.2.2.1 hcase hgt
        obtain ⟨_, c2r, c2c⟩ := spec2.2.2.2.2.1 hcase2 (by omega)
        constructor
        · intro z hz
          rw [c1c z hz, c2c z hz, hroot z hz, hrx, hry]
        · rw [c1r, c2r, hrank]

theorem runOps_abs (f g : UF → Nat → UF × Nat) (hf : FindSpec f)
    (hg : FindSpec g) :
    ∀ (ops : List Op) {n : Nat} {s1 s2 : UF}, UFInv n s1 → UFInv n s2 →
      (∀ z, z < n → rootD s1.parent z = rootD s2.parent z) →
      s1.rank = s2.rank → (∀ op ∈ ops, Op.ok n op = true) →
      UFInv n (runOps f s1 ops) ∧ UFInv n (runOps g s2 ops) ∧
      (∀ z, z < n →
        rootD (runOps f s1 ops).parent z = rootD (runOps g s2 ops).parent z) ∧
      (runOps f s1 ops).rank = (runOps g s2 ops).rank := by
  intro ops
  induction ops with
  | nil =>
    intro n s1 s2 h1 h2 hroot hrank hall
    exact ⟨h1, h2, hroot, hrank⟩
  | cons op ops ih =>
    intro n s1 s2 h1 h2 hroot hrank hall
    have hok : Op.ok n op = true := hall op (List.mem_cons_self op ops)
    have htl : ∀ o ∈ ops, Op.ok n o = true :=
      fun o ho => hall o (List.mem_cons_of_mem op ho)
    have h1s : UFInv n (applyOp f s1 op) := applyOp_inv f hf h1 op hok
    have h2s : UFInv n (applyOp g s2 op) := applyOp_inv g hg h2 op hok
    obtain ⟨habs1, habs2⟩ := applyOp_abs f g hf hg h1 h2 hroot hrank op hok
    have e1 : runOps f s1 (op :: ops) = runOps f (applyOp f s1 op) ops := rfl
    have e2 : runOps g s2 (op :: ops) = runOps g (applyOp g s2 op) ops := rfl
    rw [e1, e2]
    exact ih h1s h2s habs1 habs2 htl

/-! ### Helper lemmas for idempotence, commutativity and rank framing -/

theorem swap_if_iff {ra rb u v : Nat} (_hne : ra ≠ rb) :
    ((if u = rb then ra else u) = (if v = rb then ra else v)) ↔
    ((if u = ra then rb else u) = (if v = ra then rb else v)) := by
  split_ifs <;> omega

theorem mkUnion_connects (f : UF → Nat → UF × Nat) (hf : FindSpec f) {n : Nat}
    {s : UF} {a b : Nat} (hinv : UFInv n s) (ha : a < n) (hb : b < n) :
    rootD (mkUnion f s a b).parent a = rootD (mkUnion f s a b).parent b := by
  have spec := mkUnion_spec f hf n s a b hinv ha hb
  by_cases h1 : rootD s.parent a = rootD s.parent b
  · obtain ⟨cp, _⟩ := spec.2.2.1 h1
    rw [cp a ha, cp b hb]
    exact h1
  · rcases Nat.lt_trichotomy (nth s.rank (rootD s.parent a))
        (nth s.rank (rootD s.parent b)) with hlt | heq | hgt
    · obtain ⟨_, _, cc⟩ := spec.2.2.2.1 h1 hlt
      rw [cc a ha, cc b hb, if_pos rfl, if_neg (fun h => h1 h.symm)]
    · obtain ⟨_, _, cc⟩ := spec.2.2.2.2.2 h1 heq
      rw [cc a ha, cc b hb, if_neg h1, if_pos rfl]
    · obtain ⟨_, _, cc⟩ := spec.2.2.2.2.1 h1 hgt
      rw [cc a ha, cc b hb, if_neg h1, if_pos rfl]

theorem runOps_connected (f : UF → Nat → UF × Nat) (hf : FindSpec f) :
    ∀ (ops : List Op) {n : Nat} {s : UF} {a b : Nat}, UFInv n s → a < n → b < n →
      (∀ op ∈ ops, op = Op.union a b ∨ op = Op.union b a) →
      rootD s.parent a = rootD s.parent b →
      UFInv n (runOps f s ops) ∧
      (∀ z, z < n → rootD (runOps f s ops).parent z = rootD s.parent z) := by
  intro ops
  induction ops with
  | nil =>
    intro n s a b hinv ha hb hall hcon
    exact ⟨hinv, fun z hz => rfl⟩
  | cons op ops ih =>
    intro n s a b hinv ha hb hall hcon
    have hop := hall op (List.mem_cons_self op ops)
    have htl : ∀ o ∈ ops, o = Op.union a b ∨ o = Op.union b a :=
      fun o ho => hall o (List.mem_cons_of_mem op ho)
    have hstep : UFInv n (applyOp f s op) ∧
        (∀ z, z < n → rootD (applyOp f s op).parent z = rootD s.parent z) := by
      rcases hop with rfl | rfl
      · have spec := mkUnion_spec f hf n s a b hinv ha hb
        obtain ⟨cp, _⟩ := spec.2.2.1 hcon
        exact ⟨spec.1, cp⟩
      · have spec := mkUnion_spec f hf n s b a hinv hb ha
        obtain ⟨cp, _⟩ := spec.2.2.1 hcon.symm
        exact ⟨spec.1, cp⟩
    have hcon2 : rootD (applyOp f s op).parent a =
        rootD (applyOp f s op).parent b := by
      rw [hstep.2 a ha, hstep.2 b hb]
      exact hcon
    have e : runOps f s (op :: ops) = runOps f (applyOp f s op) ops := rfl
    rw [e]
    obtain ⟨hi, hp⟩ := ih hstep.1 ha hb htl hcon2
    refine ⟨hi, fun z hz => ?_⟩
    rw [hp z hz, hstep.2 z hz]

theorem mkUnion_rank_frame (f : UF → Nat → UF × Nat) (hf : FindSpec f)
    {n : Nat} {s : UF} {x y : Nat} (hinv : UFInv n s) (hx : x < n) (hy : y < n) :
    ((rootD s.parent x ≠ rootD s.parent y ∧
      nth s.rank (rootD s.parent x) = nth s.rank (rootD s.parent y)) →
      (mkUnion f s x y).rank =
        s.rank.set (rootD s.parent x) (nth s.rank (rootD s.parent x) + 1) ∧
      nth (mkUnion f s x y).rank (rootD s.parent x) =
        nth s.rank (rootD s.parent x) + 1 ∧
      (∀ z, z ≠ rootD s.parent x →
        nth (mkUnion f s x y).rank z = nth s.rank z)) ∧
    (¬(rootD s.parent x ≠ rootD s.parent y ∧
       nth s.rank (rootD s.parent x) = nth s.rank (rootD s.parent y)) →
      (mkUnion f s x y).rank = s.rank) := by
  have spec := mkUnion_spec f hf n s x y hinv hx hy
  have hrxlt : rootD s.parent x < n := rootD_lt hinv x hx
  constructor
  · rintro ⟨hne, heq⟩
    obtain ⟨_, crank, _⟩ := spec.2.2.2.2.2 hne heq
    have hlen : rootD s.parent x < s.rank.length := by
      rw [hinv.rlen]
      exact hrxlt
    refine ⟨crank, ?_, ?_⟩
    · rw [crank, nth_set_self _ _ _ hlen]
    · intro z hz
      rw [crank, nth_set_ne _ _ _ _ hz]
  · intro hng
    by_cases hcon : rootD s.parent x = rootD s.parent y
    · exact (spec.2.2.1 hcon).2
    · have heqn : nth s.rank (rootD s.parent x) ≠
          nth s.rank (rootD s.parent y) := by
        intro he
        exact hng ⟨hcon, he⟩
      rcases Nat.lt_trichotomy (nth s.rank (rootD s.parent x))
          (nth s.rank (rootD s.parent y)) with hlt | heq | hgt
      · exact (spec.2.2.2.1 hcon hlt).2.1
      · exact absurd heq heqn
      · exact (spec.2.2.2.2.1 hcon hgt).2.1

/-! ### Claim theorems -/

/-- C1: for every identical sequence of in-range union and find operations
applied from freshly constructed instances of the same size `n`, the three
path-compression strategies UnionFindFull, UnionFindHalving and
UnionFindSplitting end in identical final partitions: two indices have equal
roots in one implementation iff they do in the others, though the internal
parent trees may differ. -/
theorem strategy_partition_equivalence (n : Nat) (ops : List Op)
    (hops : ∀ op ∈ ops, Op.ok n op = true) :
    ∀ i, i < n → ∀ j, j < n →
      ((rootD (runFull (UF.mk0 n) ops).parent i =
          rootD (runFull (UF.mk0 n) ops).parent j ↔
        rootD (runHalving (UF.mk0 n) ops).parent i =
          rootD (runHalving (UF.mk0 n) ops).parent j) ∧
       (rootD (runHalving (UF.mk0 n) ops).parent i =
          rootD (runHalving (UF.mk0 n) ops).parent j ↔
        rootD (runSplitting (UF.mk0 n) ops).parent i =
          rootD (runSplitting (UF.mk0 n) ops).parent j)) := by
  intro i hi j hj
  have h1 := runOps_abs UnionFindFull.find UnionFindHalving.find
    fullFind_spec halvingFind_spec ops
    (UFInv.mk0 n) (UFInv.mk0 n) (fun z hz => rfl) rfl hops
  have h2 := runOps_abs UnionFindHalving.find UnionFindSplitting.find
    halvingFind_spec splittingFind_spec ops
    (UFInv.mk0 n) (UFInv.mk0 n) (fun z hz => rfl) rfl hops
  simp only [runFull, runHalving, runSplitting]
  constructor
  · rw [h1.2.2.1 i hi, h1.2.2.1 j hj]
  · rw [h2.2.2.1 i hi, h2.2.2.1 j hj]

/-- Witness for C1 at a concrete size and operation list. -/
theorem strategy_partition_equivalence_witness :
    (∀ op ∈ [Op.union 0 1, Op.find 2, Op.union 1 2], Op.ok 3 op = true) ∧
    ((rootD (runFull (UF.mk0 3) [Op.union 0 1, Op.find 2, Op.union 1 2]).parent 0 =
        rootD (runFull (UF.mk0 3) [Op.union 0 1, Op.find 2, Op.union 1 2]).parent 2 ↔
      rootD (runHalving (UF.mk0 3) [Op.union 0 1, Op.find 2, Op.union 1 2]).parent 0 =
        rootD (runHalving (UF.mk0 3) [Op.union 0 1, Op.find 2, Op.union 1 2]).parent 2) ∧
     (rootD (runHalving (UF.mk0 3) [Op.union 0 1, Op.find 2, Op.union 1 2]).parent 0 =
        rootD (runHalving (UF.mk0 3) [Op.union 0 1, Op.find 2, Op.union 1 2]).parent 2 ↔
      rootD (runSplitting (UF.mk0 3) [Op.union 0 1, Op.find 2, Op.union 1 2]).parent 0 =
        rootD (runSplitting (UF.mk0 3) [Op.union 0 1, Op.find 2, Op.union 1 2]).parent 2)) :=
  ⟨by decide,
   strategy_partition_equivalence 3 [Op.union 0 1, Op.find 2, Op.union 1 2]
     (by decide) 0 (by decide) 2 (by decide)⟩

/-- C2: in every state reachable from the initial state by in-range find and
union calls, following the parent map from any in-range index reaches, within
at most `n` steps, a root index with a parent self-loop; the number of steps
is moreover bounded by the rank difference to the root, the classical bound
on the tree height.  The parent relation has no cycle other than the
self-loops of roots.  Quantifying over all reachable states expresses that
every find and union call preserves the invariant. -/
theorem parent_chain_terminates (n : Nat) (s : UF) (hs : Reachable n s) :
    (∀ x, x < n → ∃ k, k ≤ n ∧
      nth s.parent (pIter s.parent k x) = pIter s.parent k x ∧
      nth s.rank x + k ≤ nth s.rank (pIter s.parent k x)) ∧
    (∀ x, x < n → ∀ k, 0 < k → pIter s.parent k x = x → nth s.parent x = x) := by
  have hinv : UFInv n s := reachable_inv hs
  constructor
  · intro x hx
    obtain ⟨k, hk1, hk2, hk3, hk4⟩ :=
      exists_pIter_root hinv (meas s.rank n x) x hx le_rfl
    exact ⟨k, le_trans hk1 (meas_le _ _ _), hk2, hk4⟩
  · intro x hx k hk hcyc
    exact pIter_acyclic hinv x hx k hk hcyc

/-- Witness for C2 on a freshly constructed instance of size 2. -/
theorem parent_chain_terminates_witness :
    (∃ k, k ≤ 2 ∧
      nth (UF.mk0 2).parent (pIter (UF.mk0 2).parent k 1) =
        pIter (UF.mk0 2).parent k 1 ∧
      nth (UF.mk0 2).rank 1 + k ≤
        nth (UF.mk0 2).rank (pIter (UF.mk0 2).parent k 1)) ∧
    nth (UF.mk0 2).parent 1 = 1 :=
  ⟨(parent_chain_terminates 2 (UF.mk0 2) Reachable.base).1 1 (by decide),
   (parent_chain_terminates 2 (UF.mk0 2) Reachable.base).2 1 (by decide) 1
     (by decide) (by decide)⟩

/-- C3: on every reachable state and in-range index, find returns the root
that the uncompressed traversal of the pre-call parent chain yields, in all
three implementations, and the induced partition is the same before and after
the call: compression changes representation only, never semantics. -/
theorem find_returns_precall_root (n : Nat) (s : UF) (hs : Reachable n s)
    (x : Nat) (hx : x < n) :
    ((UnionFindFull.find s x).2 = rootD s.parent x ∧
      (∀ i, i < n → ∀ j, j < n →
        (rootD (UnionFindFull.find s x).1.parent i =
           rootD (UnionFindFull.find s x).1.parent j ↔
         rootD s.parent i = rootD s.parent j))) ∧
    ((UnionFindHalving.find s x).2 = rootD s.parent x ∧
      (∀ i, i < n → ∀ j, j < n →
        (rootD (UnionFindHalving.find s x).1.parent i =
           rootD (UnionFindHalving.find s x).1.parent j ↔
         rootD s.parent i = rootD s.parent j))) ∧
    ((UnionFindSplitting.find s x).2 = rootD s.parent x ∧
      (∀ i, i < n → ∀ j, j < n →
        (rootD (UnionFindSplitting.find s x).1.parent i =
           rootD (UnionFindSplitting.find s x).1.parent j ↔
         rootD s.parent i = rootD s.parent j))) := by
  have hinv : UFInv n s := reachable_inv hs
  obtain ⟨f1, _, _, f4⟩ := fullFind_spec n s x hinv hx
  obtain ⟨g1, _, _, g4⟩ := halvingFind_spec n s x hinv hx
  obtain ⟨k1, _, _, k4⟩ := splittingFind_spec n s x hinv hx
  refine ⟨⟨f1, ?_⟩, ⟨g1, ?_⟩, ⟨k1, ?_⟩⟩
  · intro i hi j hj
    rw [f4 i hi, f4 j hj]
  · intro i hi j hj
    rw [g4 i hi, g4 j hj]
  · intro i hi j hj
    rw [k4 i hi, k4 j hj]

/-- Witness for C3 on the state reached by one union on a fresh instance. -/
theorem find_returns_precall_root_witness :
    ((UnionFindFull.find (UnionFindFull.union (UF.mk0 2) 0 1) 0).2 =
      rootD (UnionFindFull.union (UF.mk0 2) 0 1).parent 0) ∧
    (rootD (UnionFindFull.find (UnionFindFull.union (UF.mk0 2) 0 1) 0).1.parent 0 =
       rootD (UnionFindFull.find (UnionFindFull.union (UF.mk0 2) 0 1) 0).1.parent 1 ↔
     rootD (UnionFindFull.union (UF.mk0 2) 0 1).parent 0 =
       rootD (UnionFindFull.union (UF.mk0 2) 0 1).parent 1) ∧
    ((UnionFindHalving.find (UnionFindFull.union (UF.mk0 2) 0 1) 0).2 =
      rootD (UnionFindFull.union (UF.mk0 2) 0 1).parent 0) ∧
    ((UnionFindSplitting.find (UnionFindFull.union (UF.mk0 2) 0 1) 0).2 =
      rootD (UnionFindFull.union (UF.mk0 2) 0 1).parent 0) :=
  ⟨(find_returns_precall_root 2 (UnionFindFull.union (UF.mk0 2) 0 1)
      (Reachable.unionFull Reachable.base (by decide) (by decide)) 0
      (by decide)).1.1,
   (find_returns_precall_root 2 (UnionFindFull.union (UF.mk0 2) 0 1)
      (Reachable.unionFull Reachable.base (by decide) (by decide)) 0
      (by decide)).1.2 0 (by decide) 1 (by decide),
   (find_returns_precall_root 2 (UnionFindFull.union (UF.mk0 2) 0 1)
      (Reachable.unionFull Reachable.base (by decide) (by decide)) 0
      (by decide)).2.1.1,
   (find_returns_precall_root 2 (UnionFindFull.union (UF.mk0 2) 0 1)
      (Reachable.unionFull Reachable.base (by decide) (by decide)) 0
      (by decide)).2.2.1⟩

/-- C4: on every reachable state with in-range arguments, union computes the
two roots via find; equal roots make the call a no-op beyond the compression
of the two finds; otherwise the root of lower rank is attached under the root
of higher rank, and on equal ranks the root of `y` is attached under the root
of `x` whose rank then grows by one, with no other parent or rank change:
the final parent list is the post-find parent list with exactly one entry
set, the rank list changes in at most the one stated entry, and the partition
merges exactly the two classes.  Stated for UnionFindFull and
UnionFindHalving, the two implementations the claim cites. -/
theorem union_by_rank_spec (n : Nat) (s : UF) (hs : Reachable n s)
    (x y : Nat) (hx : x < n) (hy : y < n) :
    ((rootD s.parent x = rootD s.parent y →
      UnionFindFull.union s x y =
        (UnionFindFull.find (UnionFindFull.find s x).1 y).1 ∧
      (∀ z, z < n →
        rootD (UnionFindFull.union s x y).parent z = rootD s.parent z) ∧
      (UnionFindFull.union s x y).rank = s.rank) ∧
     (rootD s.parent x ≠ rootD s.parent y →
      nth s.rank (rootD s.parent x) < nth s.rank (rootD s.parent y) →
      (UnionFindFull.union s x y).parent =
        (UnionFindFull.find (UnionFindFull.find s x).1 y).1.parent.set
          (rootD s.parent x) (rootD s.parent y) ∧
      (UnionFindFull.union s x y).rank = s.rank ∧
      (∀ z, z < n → rootD (UnionFindFull.union s x y).parent z =
        if rootD s.parent z = rootD s.parent x then rootD s.parent y
        else rootD s.parent z)) ∧
     (rootD s.parent x ≠ rootD s.parent y →
      nth s.rank (rootD s.parent y) < nth s.rank (rootD s.parent x) →
      (UnionFindFull.union s x y).parent =
        (UnionFindFull.find (UnionFindFull.find s x).1 y).1.parent.set
          (rootD s.parent y) (rootD s.parent x) ∧
      (UnionFindFull.union s x y).rank = s.rank ∧
      (∀ z, z < n → rootD (UnionFindFull.union s x y).parent z =
        if rootD s.parent z = rootD s.parent y then rootD s.parent x
        else rootD s.parent z)) ∧
     (rootD s.parent x ≠ rootD s.parent y →
      nth s.rank (rootD s.parent x) = nth s.rank (rootD s.parent y) →
      (UnionFindFull.union s x y).parent =
        (UnionFindFull.find (UnionFindFull.find s x).1 y).1.parent.set
          (rootD s.parent y) (rootD s.parent x) ∧
      (UnionFindFull.union s x y).rank =
        s.rank.set (rootD s.parent x) (nth s.rank (rootD s.parent x) + 1) ∧
      (∀ z, z < n → rootD (UnionFindFull.union s x y).parent z =
        if rootD s.parent z = rootD s.parent y then rootD s.parent x
        else rootD s.parent z))) ∧
    ((rootD s.parent x = rootD s.parent y →
      UnionFindHalving.union s x y =
        (UnionFindHalving.find (UnionFindHalving.find s x).1 y).1 ∧
      (∀ z, z < n →
        rootD (UnionFindHalving.union s x y).parent z = rootD s.parent z) ∧
      (UnionFindHalving.union s x y).rank = s.rank) ∧
     (rootD s.parent x ≠ rootD s.parent y →
      nth s.rank (rootD s.parent x) < nth s.rank (rootD s.parent y) →
      (UnionFindHalving.union s x y).parent =
        (UnionFindHalving.find (UnionFindHalving.find s x).1 y).1.parent.set
          (rootD s.parent x) (rootD s.parent y) ∧
      (UnionFindHalving.union s x y).rank = s.rank ∧
      (∀ z, z < n → rootD (UnionFindHalving.union s x y).parent z =
        if rootD s.parent z = rootD s.parent x then rootD s.parent y
        else rootD s.parent z)) ∧
     (rootD s.parent x ≠ rootD s.parent y →
      nth s.rank (rootD s.parent y) < nth s.rank (rootD s.parent x) →
      (UnionFindHalving.union s x y).parent =
        (UnionFindHalving.find (UnionFindHalving.find s x).1 y).1.parent.set
          (rootD s.parent y) (rootD s.parent x) ∧
      (UnionFindHalving.union s x y).rank = s.rank ∧
      (∀ z, z < n → rootD (UnionFindHalving.union s x y).parent z =
        if rootD s.parent z = rootD s.parent y then rootD s.parent x
        else rootD s.parent z)) ∧
     (rootD s.parent x ≠ rootD s.parent y →
      nth s.rank (rootD s.parent x) = nth s.rank (rootD s.parent y) →
      (UnionFindHalving.union s x y).parent =
        (UnionFindHalving.find (UnionFindHalving.find s x).1 y).1.parent.set
          (rootD s.parent y) (rootD s.parent x) ∧
      (UnionFindHalving.union s x y).rank =
        s.rank.set (rootD s.parent x) (nth s.rank (rootD s.parent x) + 1) ∧
      (∀ z, z < n → rootD (UnionFindHalving.union s x y).parent z =
        if rootD s.parent z = rootD s.parent y then rootD s.parent x
        else rootD s.parent z))) := by
  have hinv : UFInv n s := reachable_inv hs
  have specF := mkUnion_spec UnionFindFull.find fullFind_spec
    n s x y hinv hx hy
  have specH := mkUnion_spec UnionFindHalving.find halvingFind_spec
    n s x y hinv hx hy
  constructor
  · refine ⟨fun hcon => ⟨specF.2.1 hcon, (specF.2.2.1 hcon).1,
      (specF.2.2.1 hcon).2⟩, ?_, ?_, ?_⟩
    · exact fun hne hlt => specF.2.2.2.1 hne hlt
    · exact fun hne hgt => specF.2.2.2.2.1 hne hgt
    · exact fun hne heq => specF.2.2.2.2.2 hne heq
  · refine ⟨fun hcon => ⟨specH.2.1 hcon, (specH.2.2.1 hcon).1,
      (specH.2.2.1 hcon).2⟩, ?_, ?_, ?_⟩
    · exact fun hne hlt => specH.2.2.2.1 hne hlt
    · exact fun hne hgt => specH.2.2.2.2.1 hne hgt
    · exact fun hne heq => specH.2.2.2.2.2 hne heq

/-- Witness for C4: the equal-rank case on a fresh instance of size 3. -/
theorem union_by_rank_spec_witness :
    (UnionFindFull.union (UF.mk0 3) 0 1).rank =
      (UF.mk0 3).rank.set (rootD (UF.mk0 3).parent 0)
        (nth (UF.mk0 3).rank (rootD (UF.mk0 3).parent 0) + 1) ∧
    rootD (UnionFindFull.union (UF.mk0 3) 0 1).parent 2 =
      (if rootD (UF.mk0 3).parent 2 = rootD (UF.mk0 3).parent 1
       then rootD (UF.mk0 3).parent 0 else rootD (UF.mk0 3).parent 2) ∧
    (UnionFindHalving.union (UF.mk0 3) 0 1).rank =
      (UF.mk0 3).rank.set (rootD (UF.mk0 3).parent 0)
        (nth (UF.mk0 3).rank (rootD (UF.mk0 3).parent 0) + 1) :=
  ⟨((union_by_rank_spec 3 (UF.mk0 3) Reachable.base 0 1 (by decide)
      (by decide)).1.2.2.2 (by decide) (by decide)).2.1,
   ((union_by_rank_spec 3 (UF.mk0 3) Reachable.base 0 1 (by decide)
      (by decide)).1.2.2.2 (by decide) (by decide)).2.2 2 (by decide),
   ((union_by_rank_spec 3 (UF.mk0 3) Reachable.base 0 1 (by decide)
      (by decide)).2.2.2.2 (by decide) (by decide)).2.1⟩

/-- C5: on every reachable state, repeating union of `a` and `b` any number
of times after a first union, in either argument order, leaves the partition
of the first union unchanged, and a single union in either argument order
yields the same partition. -/
theorem union_idempotent_commutative (n : Nat) (s : UF) (hs : Reachable n s)
    (a b : Nat) (ha : a < n) (hb : b < n) :
    (∀ ops : List Op, (∀ op ∈ ops, op = Op.union a b ∨ op = Op.union b a) →
      ∀ i, i < n → ∀ j, j < n →
        (rootD (runFull (UnionFindFull.union s a b) ops).parent i =
           rootD (runFull (UnionFindFull.union s a b) ops).parent j ↔
         rootD (UnionFindFull.union s a b).parent i =
           rootD (UnionFindFull.union s a b).parent j)) ∧
    (∀ i, i < n → ∀ j, j < n →
      (rootD (UnionFindFull.union s b a).parent i =
         rootD (UnionFindFull.union s b a).parent j ↔
       rootD (UnionFindFull.union s a b).parent i =
         rootD (UnionFindFull.union s a b).parent j)) := by
  have hinv : UFInv n s := reachable_inv hs
  have specAB := mkUnion_spec UnionFindFull.find fullFind_spec
    n s a b hinv ha hb
  have specBA := mkUnion_spec UnionFindFull.find fullFind_spec
    n s b a hinv hb ha
  have hcon : rootD (UnionFindFull.union s a b).parent a =
      rootD (UnionFindFull.union s a b).parent b :=
    mkUnion_connects UnionFindFull.find fullFind_spec hinv ha hb
  constructor
  · intro ops hall i hi j hj
    have hinvAB : UFInv n (UnionFindFull.union s a b) := specAB.1
    obtain ⟨_, hp⟩ := runOps_connected UnionFindFull.find
      fullFind_spec ops hinvAB ha hb hall hcon
    have e : runFull (UnionFindFull.union s a b) ops =
        runOps UnionFindFull.find (UnionFindFull.union s a b) ops := rfl
    rw [e, hp i hi, hp j hj]
  · intro i hi j hj
    have euAB : UnionFindFull.union s a b = mkUnion UnionFindFull.find s a b :=
      rfl
    have euBA : UnionFindFull.union s b a = mkUnion UnionFindFull.find s b a :=
      rfl
    rw [euAB, euBA]
    by_cases h1 : rootD s.parent a = rootD s.parent b
    · obtain ⟨pAB, _⟩ := specAB.2.2.1 h1
      obtain ⟨pBA, _⟩ := specBA.2.2.1 h1.symm
      rw [pBA i hi, pBA j hj, pAB i hi, pAB j hj]
    · have h1b : ¬ rootD s.parent b = rootD s.parent a := fun h => h1 h.symm
      rcases Nat.lt_trichotomy (nth s.rank (rootD s.parent a))
          (nth s.rank (rootD s.parent b)) with hlt | heq | hgt
      · obtain ⟨_, _, cAB⟩ := specAB.2.2.2.1 h1 hlt
        obtain ⟨_, _, cBA⟩ := specBA.2.2.2.2.1 h1b hlt
        rw [cBA i hi, cBA j hj, cAB i hi, cAB j hj]
      · obtain ⟨_, _, cAB⟩ := specAB.2.2.2.2.2 h1 heq
        obtain ⟨_, _, cBA⟩ := specBA.2.2.2.2.2 h1b heq.symm
        rw [cBA i hi, cBA j hj, cAB i hi, cAB j hj]
        exact (swap_if_iff h1).symm
      · obtain ⟨_, _, cAB⟩ := specAB.2.2.2.2.1 h1 hgt
        obtain ⟨_, _, cBA⟩ := specBA.2.2.2.1 h1b hgt
        rw [cBA i hi, cBA j hj, cAB i hi, cAB j hj]

/-- Witness for C5 on a fresh instance of size 2 with two repeated unions. -/
theorem union_idempotent_commutative_witness :
    (rootD (runFull (UnionFindFull.union (UF.mk0 2) 0 1)
        [Op.union 0 1, Op.union 1 0]).parent 0 =
       rootD (runFull (UnionFindFull.union (UF.mk0 2) 0 1)
        [Op.union 0 1, Op.union 1 0]).parent 1 ↔
     rootD (UnionFindFull.union (UF.mk0 2) 0 1).parent 0 =
       rootD (UnionFindFull.union (UF.mk0 2) 0 1).parent 1) ∧
    (rootD (UnionFindFull.union (UF.mk0 2) 1 0).parent 0 =
       rootD (UnionFindFull.union (UF.mk0 2) 1 0).parent 1 ↔
     rootD (UnionFindFull.union (UF.mk0 2) 0 1).parent 0 =
       rootD (UnionFindFull.union (UF.mk0 2) 0 1).parent 1) :=
  ⟨(union_idempotent_commutative 2 (UF.mk0 2) Reachable.base 0 1 (by decide)
      (by decide)).1 [Op.union 0 1, Op.union 1 0] (by decide) 0 (by decide) 1
      (by decide),
   (union_idempotent_commutative 2 (UF.mk0 2) Reachable.base 0 1 (by decide)
      (by decide)).2 0 (by decide) 1 (by decide)⟩

/-- C6: for the static fixed-size form (modelled from the spec, since
disjointset.c is not among the available source files), every find or union
call referencing an index outside the universe, including every negative
index, returns an out-of-range error and leaves the state exactly as it was
beforehand. -/
theorem static_out_of_range (s : UF) (x y : Int) :
    ((x < 0 ∨ (s.parent.length : Int) ≤ x) →
      StaticDisjointSet.find s x = (s, Except.error DSError.outOfRange)) ∧
    ((x < 0 ∨ (s.parent.length : Int) ≤ x ∨ y < 0 ∨
        (s.parent.length : Int) ≤ y) →
      StaticDisjointSet.union s x y = (s, Except.error DSError.outOfRange)) := by
  constructor
  · intro h
    unfold StaticDisjointSet.find
    rw [if_neg (by omega)]
  · intro h
    unfold StaticDisjointSet.union
    rw [if_neg (by omega)]

/-- Witness for C6: a negative index and an index beyond the size both fail
without mutation on a size 3 instance. -/
theorem static_out_of_range_witness :
    StaticDisjointSet.find (UF.mk0 3) (-1) =
      (UF.mk0 3, Except.error DSError.outOfRange) ∧
    StaticDisjointSet.union (UF.mk0 3) 0 5 =
      (UF.mk0 3, Except.error DSError.outOfRange) :=
  ⟨(static_out_of_range (UF.mk0 3) (-1) 0).1 (by decide),
   (static_out_of_range (UF.mk0 3) 0 5).2 (by decide)⟩

/-- C7: constructing the static fixed-size form (modelled from the spec,
since disjointset.c is not among the available source files) with a negative
size fails with an invalid-argument error; construction succeeds exactly for
non-negative sizes, with every parent entry equal to its own index and every
rank entry zero. -/
theorem static_init_spec (n : Int) :
    (n < 0 → StaticDisjointSet.init n = Except.error DSError.invalidArgument) ∧
    (0 ≤ n → StaticDisjointSet.init n = Except.ok (UF.mk0 n.toNat) ∧
      ∀ i, i < n.toNat →
        nth (UF.mk0 n.toNat).parent i = i ∧ nth (UF.mk0 n.toNat).rank i = 0) := by
  constructor
  · intro h
    unfold StaticDisjointSet.init
    rw [if_pos h]
  · intro h
    constructor
    · unfold StaticDisjointSet.init
      rw [if_neg (by omega)]
    · intro i hi
      exact ⟨nth_range _ i hi, nth_replicate _ i⟩

/-- Witness for C7 at sizes minus one and two. -/
theorem static_init_spec_witness :
    StaticDisjointSet.init (-1) = Except.error DSError.invalidArgument ∧
    (StaticDisjointSet.init 2 = Except.ok (UF.mk0 (2 : Int).toNat) ∧
      ∀ i, i < (2 : Int).toNat →
        nth (UF.mk0 (2 : Int).toNat).parent i = i ∧
        nth (UF.mk0 (2 : Int).toNat).rank i = 0) :=
  ⟨(static_init_spec (-1)).1 (by decide), (static_init_spec 2).2 (by decide)⟩

/-- C8: on every reachable state and in-range index, UnionFindFull.find
performs full path compression: it returns the pre-call root, and afterwards
every node on the traversal path from the argument to the root, that is every
iterate of the pre-call parent map, has its parent pointing directly at that
root. -/
theorem full_find_compresses (n : Nat) (s : UF) (hs : Reachable n s)
    (x : Nat) (hx : x < n) :
    (UnionFindFull.find s x).2 = rootD s.parent x ∧
    ∀ k, nth (UnionFindFull.find s x).1.parent (pIter s.parent k x) =
      rootD s.parent x := by
  have hinv : UFInv n s := reachable_inv hs
  obtain ⟨p, r⟩ := s
  have hmeas : meas r n x ≤ p.length := by
    rw [hinv.plen]
    exact meas_le r n x
  obtain ⟨h1, h2, h3, h4, h5⟩ :=
    fullFindAux_spec (meas r n x) p x p.length hinv hx le_rfl hmeas
  exact ⟨h1, h5⟩

/-- Witness for C8 on a state with a two-edge chain from node 3. -/
theorem full_find_compresses_witness :
    ((UnionFindFull.find (UnionFindFull.union (UnionFindFull.union
        (UnionFindFull.union (UF.mk0 4) 0 1) 2 3) 1 3) 3).2 =
      rootD (UnionFindFull.union (UnionFindFull.union
        (UnionFindFull.union (UF.mk0 4) 0 1) 2 3) 1 3).parent 3) ∧
    nth (UnionFindFull.find (UnionFindFull.union (UnionFindFull.union
        (UnionFindFull.union (UF.mk0 4) 0 1) 2 3) 1 3) 3).1.parent
      (pIter (UnionFindFull.union (UnionFindFull.union
        (UnionFindFull.union (UF.mk0 4) 0 1) 2 3) 1 3).parent 0 3) =
      rootD (UnionFindFull.union (UnionFindFull.union
        (UnionFindFull.union (UF.mk0 4) 0 1) 2 3) 1 3).parent 3 ∧
    nth (UnionFindFull.find (UnionFindFull.union (UnionFindFull.union
        (UnionFindFull.union (UF.mk0 4) 0 1) 2 3) 1 3) 3).1.parent
      (pIter (UnionFindFull.union (UnionFindFull.union
        (UnionFindFull.union (UF.mk0 4) 0 1) 2 3) 1 3).parent 1 3) =
      rootD (UnionFindFull.union (UnionFindFull.union
        (UnionFindFull.union (UF.mk0 4) 0 1) 2 3) 1 3).parent 3 :=
  ⟨(full_find_compresses 4 (UnionFindFull.union (UnionFindFull.union
      (UnionFindFull.union (UF.mk0 4) 0 1) 2 3) 1 3)
      (Reachable.unionFull (Reachable.unionFull (Reachable.unionFull
        Reachable.base (by decide) (by decide)) (by decide) (by decide))
        (by decide) (by decide)) 3 (by decide)).1,
   (full_find_compresses 4 (UnionFindFull.union (UnionFindFull.union
      (UnionFindFull.union (UF.mk0 4) 0 1) 2 3) 1 3)
      (Reachable.unionFull (Reachable.unionFull (Reachable.unionFull
        Reachable.base (by decide) (by decide)) (by decide) (by decide))
        (by decide) (by decide)) 3 (by decide)).2 0,
   (full_find_compresses 4 (UnionFindFull.union (UnionFindFull.union
      (UnionFindFull.union (UF.mk0 4) 0 1) 2 3) 1 3)
      (Reachable.unionFull (Reachable.unionFull (Reachable.unionFull
        Reachable.base (by decide) (by decide)) (by decide) (by decide))
        (by decide) (by decide)) 3 (by decide)).2 1⟩

/-- C10: in all three implementations find never modifies the rank list, and
union modifies at most one rank entry, exactly when the two roots are
distinct and of equal rank, in which case the surviving root gains one unit
of rank and every other entry is unchanged; in all other cases the rank list
is untouched. -/
theorem rank_frame (n : Nat) (s : UF) (hs : Reachable n s) (x y : Nat)
    (hx : x < n) (hy : y < n) :
    (UnionFindFull.find s x).1.rank = s.rank ∧
    (UnionFindHalving.find s x).1.rank = s.rank ∧
    (UnionFindSplitting.find s x).1.rank = s.rank ∧
    (((rootD s.parent x ≠ rootD s.parent y ∧
       nth s.rank (rootD s.parent x) = nth s.rank (rootD s.parent y)) →
      (UnionFindFull.union s x y).rank =
        s.rank.set (rootD s.parent x) (nth s.rank (rootD s.parent x) + 1) ∧
      nth (UnionFindFull.union s x y).rank (rootD s.parent x) =
        nth s.rank (rootD s.parent x) + 1 ∧
      (∀ z, z ≠ rootD s.parent x →
        nth (UnionFindFull.union s x y).rank z = nth s.rank z)) ∧
     (¬(rootD s.parent x ≠ rootD s.parent y ∧
        nth s.rank (rootD s.parent x) = nth s.rank (rootD s.parent y)) →
      (UnionFindFull.union s x y).rank = s.rank)) ∧
    (((rootD s.parent x ≠ rootD s.parent y ∧
       nth s.rank (rootD s.parent x) = nth s.rank (rootD s.parent y)) →
      (UnionFindHalving.union s x y).rank =
        s.rank.set (rootD s.parent x) (nth s.rank (rootD s.parent x) + 1) ∧
      nth (UnionFindHalving.union s x y).rank (rootD s.parent x) =
        nth s.rank (rootD s.parent x) + 1 ∧
      (∀ z, z ≠ rootD s.parent x →
        nth (UnionFindHalving.union s x y).rank z = nth s.rank z)) ∧
     (¬(rootD s.parent x ≠ rootD s.parent y ∧
        nth s.rank (rootD s.parent x) = nth s.rank (rootD s.parent y)) →
      (UnionFindHalving.union s x y).rank = s.rank)) ∧
    (((rootD s.parent x ≠ rootD s.parent y ∧
       nth s.rank (rootD s.parent x) = nth s.rank (rootD s.parent y)) →
      (UnionFindSplitting.union s x y).rank =
        s.rank.set (rootD s.parent x) (nth s.rank (rootD s.parent x) + 1) ∧
      nth (UnionFindSplitting.union s x y).rank (rootD s.parent x) =
        nth s.rank (rootD s.parent x) + 1 ∧
      (∀ z, z ≠ rootD s.parent x →
        nth (UnionFindSplitting.union s x y).rank z = nth s.rank z)) ∧
     (¬(rootD s.parent x ≠ rootD s.parent y ∧
        nth s.rank (rootD s.parent x) = nth s.rank (rootD s.parent y)) →
      (UnionFindSplitting.union s x y).rank = s.rank)) := by
  have hinv : UFInv n s := reachable_inv hs
  refine ⟨rfl, rfl, rfl, ?_, ?_, ?_⟩
  · exact mkUnion_rank_frame UnionFindFull.find fullFind_spec
      hinv hx hy
  · exact mkUnion_rank_frame UnionFindHalving.find halvingFind_spec
      hinv hx hy
  · exact mkUnion_rank_frame UnionFindSplitting.find
      splittingFind_spec hinv hx hy

/-- Witness for C10 on a fresh instance of size 2 where the equal-rank case
of union fires. -/
theorem rank_frame_witness :
    (UnionFindFull.find (UF.mk0 2) 0).1.rank = (UF.mk0 2).rank ∧
    (UnionFindFull.union (UF.mk0 2) 0 1).rank =
      (UF.mk0 2).rank.set (rootD (UF.mk0 2).parent 0)
        (nth (UF.mk0 2).rank (rootD (UF.mk0 2).parent 0) + 1) ∧
    (UnionFindHalving.union (UF.mk0 2) 0 1).rank =
      (UF.mk0 2).rank.set (rootD (UF.mk0 2).parent 0)
        (nth (UF.mk0 2).rank (rootD (UF.mk0 2).parent 0) + 1) :=
  ⟨(rank_frame 2 (UF.mk0 2) Reachable.base 0 1 (by decide) (by decide)).1,
   ((rank_frame 2 (UF.mk0 2) Reachable.base 0 1 (by decide)
      (by decide)).2.2.2.1.1 (by decide)).1,
   ((rank_frame 2 (UF.mk0 2) Reachable.base 0 1 (by decide)
      (by decide)).2.2.2.2.1.1 (by decide)).1⟩
